import Mathlib

/-!
Verification development for the lumen diff viewer core.

The definitions below are a shallow embedding of the Rust sources under
src/command/diff (state.rs, git.rs, render/diff_view.rs, render/footer.rs).
Text is modelled as List Char; Rust byte indices are modelled through the
UTF-8 size of each character, and every fallible byte-index slice becomes an
Option, with none standing for a Rust panic (out of range, not on a
character boundary, or an unsigned subtraction overflow).

The modules diff_algo.rs, search.rs and types.rs are referenced by the
sources but are not part of the repository snapshot; the definitions that
come from them are modelled from the specification and are marked
accordingly in their doc comments.
-/

/-- Concatenation of the lists produced by f, in order. -/
def catMap (f : α → List β) : List α → List β
  | [] => []
  | a :: as => f a ++ catMap f as

/-- Index of the first element satisfying p, as in Iterator::position in Rust. -/
def position? (p : α → Bool) : List α → Option Nat
  | [] => none
  | a :: as => if p a then some 0 else (position? p as).map (· + 1)

/-- Pairs each element with its index, starting at n. -/
def idxFrom (n : Nat) : List α → List (Nat × α)
  | [] => []
  | a :: as => (n, a) :: idxFrom (n + 1) as

/-- Total UTF-8 byte length of a character list, as str::len in Rust. -/
def utf8Len : List Char → Nat
  | [] => 0
  | c :: cs => c.utf8Size + utf8Len cs

/-- Splits a character list at a given UTF-8 byte offset.  Returns none when
the offset is past the end or does not fall on a character boundary; in the
Rust sources such a byte index would make a slice panic. -/
def byteSplit : List Char → Nat → Option (List Char × List Char)
  | cs, 0 => some ([], cs)
  | [], _ + 1 => none
  | c :: cs, n + 1 =>
    if c.utf8Size ≤ n + 1 then
      (byteSplit cs (n + 1 - c.utf8Size)).map (fun p => (c :: p.1, p.2))
    else none

/-- First n bytes of a character list, as the Rust slice s[..n]. -/
def byteTake (cs : List Char) (n : Nat) : Option (List Char) :=
  (byteSplit cs n).map (·.1)

/-- All but the first n bytes of a character list, as the Rust slice s[n..]. -/
def byteDrop (cs : List Char) (n : Nat) : Option (List Char) :=
  (byteSplit cs n).map (·.2)

/-- Byte-range slice s[a..b] of a character list, as the Rust range slice. -/
def byteSlice (cs : List Char) (a b : Nat) : Option (List Char) :=
  if b < a then none
  else
    match byteDrop cs a with
    | some rest => byteTake rest (b - a)
    | none => none

/-- True when the byte offset n falls on a character boundary of cs. -/
def isBoundary (cs : List Char) (n : Nat) : Bool :=
  (byteSplit cs n).isSome

/-- Accumulator pass for splitLines. -/
def splitLinesAux : List Char → List Char → List (List Char)
  | [], acc => if acc.isEmpty then [] else [acc.reverse]
  | c :: rest, acc =>
    if c = '\n' then acc.reverse :: splitLinesAux rest []
    else splitLinesAux rest (c :: acc)

/-- Splits text into lines as str::lines in Rust: a trailing newline does not
produce a final empty line, and empty text has no lines. -/
def splitLines (s : List Char) : List (List Char) :=
  splitLinesAux s []

/-- Replaces every tab character by tab-width spaces, per the specification
of the alignment engine. -/
def expandTabs (s : List Char) (w : Nat) : List Char :=
  catMap (fun c => if c = '\t' then List.replicate w ' ' else [c]) s

/-- Lower-cases every character, for case-insensitive search. -/
def lowerList (cs : List Char) : List Char :=
  cs.map Char.toLower

/-- True when the first list is an initial run of the second. -/
def leadEq : List Char → List Char → Bool
  | [], _ => true
  | _ :: _, [] => false
  | a :: as, b :: bs => a == b && leadEq as bs

/-- Change classification of an aligned line, from types.rs as used throughout
render/diff_view.rs. -/
inductive ChangeType where
  | equal
  | insert
  | delete
  | modified
deriving DecidableEq, Repr

/-- One row of the side-by-side alignment: optional (line number, text) for
each panel plus the change classification, from types.rs as used by the
renderer and the specification of AlignedLine. -/
structure DiffLine (α : Type) where
  old_line : Option (Nat × α)
  new_line : Option (Nat × α)
  change_type : ChangeType
deriving DecidableEq, Repr

/-- Per-file status, from types.rs as used by git.rs. -/
inductive FileStatus where
  | added
  | deleted
  | modified
deriving DecidableEq, Repr

/-- One file of the diff, from types.rs as described by the data model of the
specification: filename, both contents and the derived status. -/
structure FileDiff where
  filename : List Char
  old_content : List Char
  new_content : List Char
  status : FileStatus
deriving DecidableEq, Repr

/-- Junk value used only with getD at indices proved in bounds. -/
def fd0 : FileDiff := ⟨[], [], [], FileStatus.modified⟩

/-- Raw alignment tag before replace pairing: a line deleted from the old
side, inserted on the new side, or common to both. -/
inductive Tag (α : Type) where
  | del : α → Tag α
  | ins : α → Tag α
  | eq : α → Tag α
deriving DecidableEq, Repr

/-- Alignment tag after replace pairing; pmod pairs a deleted line with an
inserted line rendered side by side. -/
inductive PTag (α : Type) where
  | pdel : α → PTag α
  | pins : α → PTag α
  | peq : α → PTag α
  | pmod : α → α → PTag α
deriving DecidableEq, Repr

/-- True on a deleted-line tag. -/
def Tag.isDel : Tag α → Bool
  | .del _ => true
  | _ => false

/-- True on an inserted-line tag. -/
def Tag.isIns : Tag α → Bool
  | .ins _ => true
  | _ => false

/-- True on a common-line tag. -/
def Tag.isEq : Tag α → Bool
  | .eq _ => true
  | _ => false

/-- Payloads of the deleted-line tags, in order. -/
def delPayloads (ts : List (Tag α)) : List α :=
  ts.filterMap fun t => match t with | .del a => some a | _ => none

/-- Payloads of the inserted-line tags, in order. -/
def insPayloads (ts : List (Tag α)) : List α :=
  ts.filterMap fun t => match t with | .ins b => some b | _ => none

/-- Fuel-indexed longest common subsequence; the fuel bounds the recursion
depth and one unit is consumed per step, so the sum of the list lengths is
always sufficient fuel. -/
def lcsFuel [DecidableEq α] : Nat → List α → List α → List α
  | 0, _, _ => []
  | _ + 1, [], _ => []
  | _ + 1, _ :: _, [] => []
  | n + 1, a :: as, b :: bs =>
    if a = b then a :: lcsFuel n as bs
    else
      let r1 := lcsFuel n (a :: as) bs
      let r2 := lcsFuel n as (b :: bs)
      if r1.length < r2.length then r2 else r1

/-- Modelled from the spec: longest common subsequence of two line lists, the
line-granularity alignment backbone of diff_algo.rs (absent from src).  When
the one-sided candidates tie, the one dropping the new-side head is kept. -/
def lcs [DecidableEq α] (xs ys : List α) : List α :=
  lcsFuel (xs.length + ys.length) xs ys

/-- Modelled from the spec: reconstruction of the tagged alignment from a
common subsequence cs of olds and news; lines before the next common line
become del or ins tags, the common line becomes an eq tag (diff_algo.rs is
absent from src). -/
def alignRaw [DecidableEq α] : List α → List α → List α → List (Tag α)
  | olds, news, [] => olds.map Tag.del ++ news.map Tag.ins
  | olds, news, c :: cs =>
    let od := olds.takeWhile fun x => x != c
    let orest := olds.dropWhile fun x => x != c
    let nd := news.takeWhile fun x => x != c
    let nrest := news.dropWhile fun x => x != c
    od.map Tag.del ++ nd.map Tag.ins ++ (Tag.eq c :: alignRaw orest.tail nrest.tail cs)

/-- Modelled from the spec: positional pairing of a deleted run with an
inserted run, up to the shorter length; the surplus keeps its own tag
(diff_algo.rs is absent from src). -/
def zipMod : List α → List α → List (PTag α)
  | [], bs => bs.map PTag.pins
  | a :: as, [] => (a :: as).map PTag.pdel
  | a :: as, b :: bs => PTag.pmod a b :: zipMod as bs

/-- Fuel-indexed replace pairing; one unit of fuel is consumed per step and
every step consumes at least one tag, so the tag-list length is always
sufficient fuel. -/
def pairReplaceFuel : Nat → List (Tag α) → List (PTag α)
  | 0, _ => []
  | _ + 1, [] => []
  | n + 1, .eq a :: rest => PTag.peq a :: pairReplaceFuel n rest
  | n + 1, .ins b :: rest => PTag.pins b :: pairReplaceFuel n rest
  | n + 1, .del a :: rest =>
    let drun := rest.takeWhile Tag.isDel
    let rest2 := rest.dropWhile Tag.isDel
    let irun := rest2.takeWhile Tag.isIns
    let rest3 := rest2.dropWhile Tag.isIns
    zipMod (a :: delPayloads drun) (insPayloads irun) ++ pairReplaceFuel n rest3

/-- Modelled from the spec: the replace-pairing heuristic, applied to each
maximal run of deleted lines immediately followed by inserted lines
(diff_algo.rs is absent from src). -/
def pairReplace (ts : List (Tag α)) : List (PTag α) :=
  pairReplaceFuel ts.length ts

/-- Modelled from the spec: attaches one-based line numbers to each side of
the paired alignment (diff_algo.rs is absent from src). -/
def numberLines : List (PTag α) → Nat → Nat → List (DiffLine α)
  | [], _, _ => []
  | .peq a :: rest, o, n => ⟨some (o, a), some (n, a), .equal⟩ :: numberLines rest (o + 1) (n + 1)
  | .pdel a :: rest, o, n => ⟨some (o, a), none, .delete⟩ :: numberLines rest (o + 1) n
  | .pins b :: rest, o, n => ⟨none, some (n, b), .insert⟩ :: numberLines rest o (n + 1)
  | .pmod a b :: rest, o, n => ⟨some (o, a), some (n, b), .modified⟩ :: numberLines rest (o + 1) (n + 1)

/-- Modelled from the spec: full alignment of two line lists, LCS backbone
plus replace pairing plus numbering (diff_algo.rs is absent from src). -/
def alignLines [DecidableEq α] (olds news : List α) : List (DiffLine α) :=
  numberLines (pairReplace (alignRaw olds news (lcs olds news))) 1 1

/-- Modelled from the spec: compute_side_by_side of diff_algo.rs (absent from
src), the entry point used by state.rs and the renderer: expand tabs, split
into lines, align. -/
def compute_side_by_side (old new : List Char) (tabWidth : Nat) : List (DiffLine (List Char)) :=
  alignLines (splitLines (expandTabs old tabWidth)) (splitLines (expandTabs new tabWidth))

/-- Scanner for hunk starts: index i starts a hunk when line i is not Equal
and the previous line was Equal or absent. -/
def hunkStartsAux : List (DiffLine α) → Nat → Bool → List Nat
  | [], _, _ => []
  | l :: rest, i, prevEq =>
    if l.change_type = ChangeType.equal then hunkStartsAux rest (i + 1) true
    else if prevEq then i :: hunkStartsAux rest (i + 1) false
    else hunkStartsAux rest (i + 1) false

/-- Modelled from the spec: find_hunk_starts of diff_algo.rs (absent from
src), the start index of every maximal run of non-Equal aligned lines. -/
def find_hunk_starts (lines : List (DiffLine α)) : List Nat :=
  hunkStartsAux lines 0 true

/-- Sidebar entry, from types.rs as described by the specification: either a
directory header or a file leaf carrying a back-reference into the file
list.  The flat list is the rendered tree in depth-first order. -/
inductive SidebarItem where
  | dir : List Char → Nat → SidebarItem
  | file : Nat → List Char → FileStatus → Nat → SidebarItem
deriving DecidableEq, Repr

/-- File index carried by a file leaf, none on a directory header. -/
def SidebarItem.fileIndex? : SidebarItem → Option Nat
  | .file i _ _ _ => some i
  | _ => none

/-- True on a file leaf. -/
def SidebarItem.isFile (it : SidebarItem) : Bool :=
  it.fileIndex?.isSome

/-- True on the file leaf whose back-reference is i. -/
def SidebarItem.isFileWith (i : Nat) (it : SidebarItem) : Bool :=
  it.fileIndex? == some i

/-- Accumulator pass for splitSegs. -/
def splitSegsAux : List Char → List Char → List (List Char)
  | [], acc => [acc.reverse]
  | c :: rest, acc =>
    if c = '/' then acc.reverse :: splitSegsAux rest []
    else splitSegsAux rest (c :: acc)

/-- Splits a path into its slash-separated segments. -/
def splitSegs (s : List Char) : List (List Char) :=
  splitSegsAux s []

/-- Lexicographic order on character lists, by code point. -/
def lexLe : List Char → List Char → Bool
  | [], _ => true
  | _ :: _, [] => false
  | a :: as, b :: bs => if a = b then lexLe as bs else decide (a < b)

/-- Ordered insertion for the deterministic sidebar sort. -/
def insertLe (le : α → α → Bool) (x : α) : List α → List α
  | [] => [x]
  | y :: ys => if le x y then x :: y :: ys else y :: insertLe le x ys

/-- Insertion sort with a boolean order, deterministic for a fixed input. -/
def sortLe (le : α → α → Bool) : List α → List α
  | [] => []
  | x :: xs => insertLe le x (sortLe le xs)

/-- Length of the common prefix of two segment lists. -/
def commonLen : List (List Char) → List (List Char) → Nat
  | a :: as, b :: bs => if a = b then commonLen as bs + 1 else 0
  | _, _ => 0

/-- Emits directory headers for the segments of the current path that are not
shared with the previous path, then the file leaf, in depth-first order. -/
def buildTreeAux : List (List Char) → List (List (List Char) × Nat × FileStatus) → List SidebarItem
  | _, [] => []
  | prev, (segs, i, st) :: rest =>
    let dirs := segs.dropLast
    let k := commonLen prev dirs
    (idxFrom k (dirs.drop k)).map (fun p => SidebarItem.dir p.2 p.1) ++
      (SidebarItem.file i (segs.getLastD []) st dirs.length :: buildTreeAux dirs rest)

/-- Modelled from the spec: build_file_tree of types.rs (absent from src).
Groups filenames by path separator into directory headers with file leaves,
one leaf per file, ordered deterministically by full path. -/
def build_file_tree (fds : List FileDiff) : List SidebarItem :=
  let entries := (idxFrom 0 fds).map fun p => (splitSegs p.2.filename, p.1, p.2.status)
  buildTreeAux [] (sortLe (fun a b => lexLe (catMap id a.1) (catMap id b.1)) entries)

/-- Panel a search match was found in, from search.rs as used by the
renderer. -/
inductive MatchPanel where
  | old
  | new
deriving DecidableEq, Repr

/-- One search match, from search.rs as described by the specification:
panel, aligned-line index and the match offsets within the line text. -/
structure SearchMatch where
  panel : MatchPanel
  line_index : Nat
  start_off : Nat
  end_off : Nat
deriving DecidableEq, Repr

/-- Search interaction mode, from search.rs as used by footer.rs. -/
inductive SearchMode where
  | inactive
  | inputForward
deriving DecidableEq, Repr

/-- Search engine state, from search.rs as described by the specification:
mode, query, ordered match list and current-match cursor. -/
structure SearchState where
  mode : SearchMode
  query : List Char
  match_list : List SearchMatch
  current_match : Option Nat
deriving DecidableEq, Repr

/-- Number of matches of the current query. -/
def SearchState.match_count (s : SearchState) : Nat :=
  s.match_list.length

/-- Offsets at which the lowered query occurs in the lowered line. -/
def occurrences (q line : List Char) : List Nat :=
  (List.range (line.length + 1)).filter fun p => leadEq (lowerList q) (lowerList (line.drop p))

/-- Modelled from the spec: match recomputation of search.rs (absent from
src).  An empty query yields no matches; otherwise every case-insensitive
occurrence in the old-side and new-side text of every aligned line yields a
match, ordered by line and offset. -/
def recompute_matches (query : List Char) (lines : List (DiffLine (List Char))) : List SearchMatch :=
  if query.isEmpty then []
  else
    catMap
      (fun p =>
        (match p.2.old_line with
          | some ol =>
            (occurrences query ol.2).map fun off =>
              SearchMatch.mk MatchPanel.old p.1 off (off + query.length)
          | none => []) ++
        (match p.2.new_line with
          | some nl =>
            (occurrences query nl.2).map fun off =>
              SearchMatch.mk MatchPanel.new p.1 off (off + query.length)
          | none => []))
      (idxFrom 0 lines)

/-- Modelled from the spec: query edit transition of search.rs (absent from
src): the query is replaced and the matches recomputed over the aligned
lines of the active file. -/
def SearchState.update_query (s : SearchState) (q : List Char)
    (lines : List (DiffLine (List Char))) : SearchState :=
  let ms := recompute_matches q lines
  { s with query := q, match_list := ms,
           current_match := if ms.isEmpty then none else some 0 }

/-- Focused panel of the viewer, from types.rs as used by state.rs. -/
inductive FocusedPanel where
  | sidebar
  | diffView
deriving DecidableEq, Repr

/-- Fullscreen mode of the diff panels, from types.rs as used by state.rs. -/
inductive DiffFullscreen where
  | none
  | oldOnly
  | newOnly
deriving DecidableEq, Repr

/-- View settings, from types.rs as described by the specification: tab width
and the context-window configuration. -/
structure DiffViewSettings where
  tab_width : Nat
  context_enabled : Bool
  context_max_lines : Nat
deriving DecidableEq, Repr

/-- Pending multi-key prefix, from state.rs. -/
inductive PendingKey where
  | none
  | g
deriving DecidableEq, Repr

/-- Session state, from AppState in state.rs.  viewed_files holds file
indices, as in the source; scroll and h_scroll are u16 in the source and are
modelled as Nat with the explicit mod 2^16 where the source casts. -/
structure AppState where
  file_diffs : List FileDiff
  sidebar_items : List SidebarItem
  current_file : Nat
  sidebar_selected : Nat
  sidebar_scroll : Nat
  sidebar_h_scroll : Nat
  scroll : Nat
  h_scroll : Nat
  focused_panel : FocusedPanel
  viewed_files : Finset Nat
  show_sidebar : Bool
  settings : DiffViewSettings
  diff_fullscreen : DiffFullscreen
  search_state : SearchState
  pending_key : PendingKey
  needs_reload : Bool

/-- Initial scroll for a file, from calc_initial_scroll in state.rs: the
first hunk start cast to u16 minus the fixed lookback margin of 5, floored
at 0; 0 when the file has no hunks. -/
def calc_initial_scroll (diff : FileDiff) (tabWidth : Nat) : Nat :=
  let side_by_side := compute_side_by_side diff.old_content diff.new_content tabWidth
  let hunks := find_hunk_starts side_by_side
  match hunks.head? with
  | some h => (h % 65536) - 5
  | none => 0

/-- Reload, from AppState::reload in state.rs: captures the current filename,
remaps the viewed set through filenames with changed files unmarked,
replaces the file list, rebuilds the sidebar, re-resolves the current file
and sidebar selection, preserves the scroll clamped to the new file when the
list is not empty, and clears the reload flag. -/
def AppState.reload (s : AppState) (file_diffs : List FileDiff)
    (changed_files : Option (Finset (List Char))) : AppState :=
  let old_filename : Option (List Char) := (s.file_diffs.get? s.current_file).map FileDiff.filename
  let old_scroll := s.scroll
  let old_h_scroll := s.h_scroll
  let viewed0 : Finset (List Char) :=
    (s.viewed_files.filter fun idx => idx < s.file_diffs.length).image
      fun idx => (s.file_diffs.getD idx fd0).filename
  let viewed_filenames : Finset (List Char) :=
    match changed_files with
    | some changed => viewed0 \ changed
    | none => viewed0
  let sidebar_items := build_file_tree file_diffs
  let viewed_files : Finset Nat :=
    (Finset.range file_diffs.length).filter
      fun i => (file_diffs.getD i fd0).filename ∈ viewed_filenames
  let cf0 : Nat :=
    match old_filename with
    | some name => (position? (fun f => f.filename == name) file_diffs).getD 0
    | none => s.current_file
  let cf1 : Nat :=
    if file_diffs.length ≤ cf0 ∧ file_diffs.length ≠ 0 then file_diffs.length - 1 else cf0
  let sidebar_selected : Nat :=
    match position? (SidebarItem.isFileWith cf1) sidebar_items with
    | some idx => idx
    | none => (position? SidebarItem.isFile sidebar_items).getD 0
  let sh : Nat × Nat :=
    if file_diffs.isEmpty then (old_scroll, old_h_scroll)
    else
      let diff := file_diffs.getD cf1 fd0
      let side_by_side := compute_side_by_side diff.old_content diff.new_content s.settings.tab_width
      let max_scroll := side_by_side.length - 10
      (min old_scroll (max_scroll % 65536), old_h_scroll)
  { s with file_diffs := file_diffs, sidebar_items := sidebar_items,
           viewed_files := viewed_files, current_file := cf1,
           sidebar_selected := sidebar_selected, scroll := sh.1, h_scroll := sh.2,
           needs_reload := false }

/-- File selection, from AppState::select_file in state.rs.  The source
indexes file_diffs with the new index unchecked; none models the panic of an
out-of-bounds index. -/
def AppState.select_file (s : AppState) (file_index : Nat) : Option AppState :=
  if file_index < s.file_diffs.length then
    some { s with current_file := file_index,
                  diff_fullscreen := DiffFullscreen.none,
                  scroll := calc_initial_scroll (s.file_diffs.getD file_index fd0) s.settings.tab_width,
                  h_scroll := 0 }
  else none

/-- ASCII whitespace as recognised by str::trim in Rust; the Unicode-only
whitespace code points are beyond the contents this tool manipulates. -/
def isRustWhitespace (c : Char) : Bool :=
  c = ' ' || c = '\t' || c = '\n' || c = '\r' || c = '\x0b' || c = '\x0c'

/-- Leading and trailing whitespace removal, as str::trim in Rust. -/
def rustTrim (cs : List Char) : List Char :=
  ((cs.dropWhile isRustWhitespace).reverse.dropWhile isRustWhitespace).reverse

/-- Status derivation for the PR unified-diff path, from determine_file_status
in git.rs: emptiness is judged after trimming whitespace. -/
def determine_file_status (old_content new_content : List Char) : FileStatus :=
  let old_empty := (rustTrim old_content).isEmpty
  let new_empty := (rustTrim new_content).isEmpty
  if old_empty ∧ ¬ new_empty then FileStatus.added
  else if ¬ old_empty ∧ new_empty then FileStatus.deleted
  else FileStatus.modified

/-- Status derivation for the git path, from the closure inside
load_file_diffs in git.rs: emptiness is exact emptiness of the content. -/
def load_file_diff_status (old_content new_content : List Char) : FileStatus :=
  if old_content.isEmpty ∧ ¬ new_content.isEmpty then FileStatus.added
  else if ¬ old_content.isEmpty ∧ new_content.isEmpty then FileStatus.deleted
  else FileStatus.modified

/-- Middle truncation of a filename for the footer, from truncate_middle in
render/footer.rs.  The length tests use the byte length, as str::len in
Rust, while the kept pieces are taken with char iterators; both are modelled
faithfully. -/
def truncate_middle (s : List Char) (max_len : Nat) : List Char :=
  if utf8Len s ≤ max_len then s
  else if max_len < 5 then s.take max_len
  else
    let half := (max_len - 3) / 2
    s.take half ++ ['.', '.', '.'] ++ s.drop (utf8Len s - half)

/-- Appends a fragment to the produced list unless it is empty, as the
guarded result.push calls in apply_search_highlight. -/
def pushFrag (acc : List (List Char)) (frag : List Char) : List (List Char) :=
  if frag.isEmpty then acc else acc ++ [frag]

/-- Unhighlighted text before the match inside the current span, the slice
remaining[..rel_start - current_pos] of apply_search_highlight, taken only
when rel_start > current_pos. -/
def beforeStep (remaining : List Char) (currentPos relStart : Nat)
    (acc : List (List Char)) : Option (List (List Char)) :=
  if currentPos < relStart then (byteTake remaining (relStart - currentPos)).map (pushFrag acc)
  else some acc

/-- Highlighted match portion inside the current span, the slice
remaining[match_portion_start..match_portion_end] of apply_search_highlight,
taken only when the portion is non-empty. -/
def matchStep (remaining : List Char) (mps mpe : Nat)
    (acc : List (List Char)) : Option (List (List Char)) :=
  if mps < mpe then (byteSlice remaining mps mpe).map (pushFrag acc) else some acc

/-- Inner loop of apply_search_highlight in render/diff_view.rs, over the
match ranges of one styled span.  charPos is the byte offset of the span in
the line, currentPos the byte offset consumed inside the span, remaining the
unconsumed suffix of the span text.  none models a Rust panic: a byte slice
outside the text or off a character boundary, or the unsigned subtraction
match_portion_end = rel_end - current_pos overflowing. -/
def overlayGo (spanText : List Char) (charPos : Nat) :
    List (Nat × Nat × Bool) → Nat → List Char → List (List Char) → Option (List (List Char))
  | [], _, remaining, acc => some (if remaining.isEmpty then acc else acc ++ [remaining])
  | (ms, me, _) :: rest, currentPos, remaining, acc =>
    if me ≤ charPos ∨ charPos + utf8Len spanText ≤ ms then
      overlayGo spanText charPos rest currentPos remaining acc
    else if min (me - charPos) (utf8Len spanText) < currentPos then none
    else
      match beforeStep remaining currentPos (ms - charPos) acc with
      | none => none
      | some acc1 =>
        match matchStep remaining (max (ms - charPos) currentPos - currentPos)
            (min (me - charPos) (utf8Len spanText) - currentPos) acc1 with
        | none => none
        | some acc2 =>
          match byteDrop remaining (min (min (me - charPos) (utf8Len spanText) - currentPos)
              (utf8Len remaining)) with
          | some remaining2 =>
            overlayGo spanText charPos rest (min (me - charPos) (utf8Len spanText))
              remaining2 acc2
          | none => none

/-- Outer loop of apply_search_highlight in render/diff_view.rs, over the
styled spans of one line; charPos accumulates the byte length of the spans
already processed. -/
def overlaySpans : List (List Char) → Nat → List (Nat × Nat × Bool) → Option (List (List Char))
  | [], _, _ => some []
  | s :: ss, charPos, ranges =>
    match overlayGo s charPos ranges 0 s [] with
    | some frags => (overlaySpans ss (charPos + utf8Len s) ranges).map (frags ++ ·)
    | none => none

/-- Overlay of search-match highlight ranges onto the styled fragments of a
line, from apply_search_highlight in render/diff_view.rs.  Only the produced
text fragments are modelled; the styles do not influence the slicing.  With
no ranges the spans are returned unchanged, as in the source. -/
def apply_search_highlight (spans : List (List Char)) (ranges : List (Nat × Nat × Bool)) :
    Option (List (List Char)) :=
  if ranges.isEmpty then some spans else overlaySpans spans 0 ranges

/-- Quiescent search state used by the concrete session states below. -/
def searchState0 : SearchState := ⟨SearchMode.inactive, [], [], none⟩

/-- Concrete view settings used by the concrete session states below. -/
def settings0 : DiffViewSettings := ⟨4, true, 3⟩

/-- Concrete one-line modified file used by the concrete session states. -/
def fdA : FileDiff := ⟨['a', '.', 'r', 's'], ['x', '\n'], ['y', '\n'], FileStatus.modified⟩

/-- Concrete added file used by the concrete session states. -/
def fdB : FileDiff := ⟨['b', '.', 'r', 's'], [], ['z', '\n'], FileStatus.added⟩

/-- Concrete session state holding the single file fdA. -/
def baseState : AppState :=
  ⟨[fdA], build_file_tree [fdA], 0, 0, 0, 0, 0, 0, FocusedPanel.diffView, ∅, true,
    settings0, DiffFullscreen.none, searchState0, PendingKey.none, false⟩

/-- Concrete session state with an empty file list. -/
def emptyState : AppState :=
  ⟨[], build_file_tree [], 0, 0, 0, 0, 0, 0, FocusedPanel.diffView, ∅, true,
    settings0, DiffFullscreen.none, searchState0, PendingKey.none, false⟩

/-- Old-side payloads of a tagged alignment, in order: deleted and common
lines. -/
def oldsOfTags : List (Tag α) → List α :=
  List.filterMap fun t => match t with | .del a => some a | .eq a => some a | .ins _ => none

/-- New-side payloads of a tagged alignment, in order: inserted and common
lines. -/
def newsOfTags : List (Tag α) → List α :=
  List.filterMap fun t => match t with | .ins b => some b | .eq b => some b | .del _ => none

/-- Old-side payloads of a paired alignment, in order. -/
def oldsOfP : List (PTag α) → List α :=
  List.filterMap fun t =>
    match t with | .pdel a => some a | .peq a => some a | .pmod a _ => some a | .pins _ => none

/-- New-side payloads of a paired alignment, in order. -/
def newsOfP : List (PTag α) → List α :=
  List.filterMap fun t =>
    match t with | .pins b => some b | .peq b => some b | .pmod _ b => some b | .pdel _ => none

/-- Old-side texts of the aligned lines with a populated old side, in
order. -/
def oldsOfLines (ls : List (DiffLine α)) : List α :=
  ls.filterMap fun dl => dl.old_line.map Prod.snd

/-- New-side texts of the aligned lines with a populated new side, in
order. -/
def newsOfLines (ls : List (DiffLine α)) : List α :=
  ls.filterMap fun dl => dl.new_line.map Prod.snd

/-- Claim C8, counterexample: in the PR unified-diff path the status is
derived from trimmed emptiness, so a whitespace-only old content with an
empty new content yields Modified although the claim requires Deleted for a
non-empty old content and empty new content. -/
theorem determine_file_status_trim_counterexample :
    determine_file_status [' ', ' ', '\n'] [] = FileStatus.modified ∧
    ([' ', ' ', '\n'] : List Char) ≠ [] := by
  decide

/-- Claim C8 (amended): in the git path (load_file_diffs) the status follows
exact emptiness of the two contents as claimed; in the PR unified-diff path
(determine_file_status) emptiness is judged after trimming whitespace, so
whitespace-only content counts as empty. -/
theorem file_status_from_emptiness (old_content new_content : List Char) :
    (load_file_diff_status old_content new_content = FileStatus.added ↔
      old_content = [] ∧ new_content ≠ []) ∧
    (load_file_diff_status old_content new_content = FileStatus.deleted ↔
      old_content ≠ [] ∧ new_content = []) ∧
    (load_file_diff_status old_content new_content = FileStatus.modified ↔
      ¬(old_content = [] ∧ new_content ≠ []) ∧ ¬(old_content ≠ [] ∧ new_content = [])) ∧
    (determine_file_status old_content new_content = FileStatus.added ↔
      rustTrim old_content = [] ∧ rustTrim new_content ≠ []) ∧
    (determine_file_status old_content new_content = FileStatus.deleted ↔
      rustTrim old_content ≠ [] ∧ rustTrim new_content = []) ∧
    (determine_file_status old_content new_content = FileStatus.modified ↔
      ¬(rustTrim old_content = [] ∧ rustTrim new_content ≠ []) ∧
      ¬(rustTrim old_content ≠ [] ∧ rustTrim new_content = [])) := by
  simp only [load_file_diff_status, determine_file_status, List.isEmpty_iff]
  split_ifs <;> simp_all

/-- Claim C10: select_file is in bounds exactly under the precondition that
the index is below the file-list length; on an empty file list every index
is out of bounds and the unchecked indexing would panic. -/
theorem select_file_inbounds_iff (s : AppState) :
    (∀ idx, (s.select_file idx).isSome = true ↔ idx < s.file_diffs.length) ∧
    (s.file_diffs = [] → ∀ idx, s.select_file idx = none) := by
  constructor
  · intro idx
    unfold AppState.select_file
    split_ifs with h <;> simp [h]
  · intro h idx
    unfold AppState.select_file
    simp [h]

/-- Claim C10, witness: on the concrete empty session state select_file is
never in bounds. -/
theorem select_file_inbounds_iff_witness :
    AppState.select_file emptyState 2 = none :=
  (select_file_inbounds_iff emptyState).2 rfl 2

/-- Claim C7: select_file with an in-bounds index sets the current file to
that index, resets fullscreen and horizontal scroll, and sets the vertical
scroll to the first-hunk default: first hunk start (as u16) minus the fixed
lookback margin of 5 floored at 0, or 0 without hunks. -/
theorem select_file_resets (s : AppState) (idx : Nat)
    (hcur : s.current_file < s.file_diffs.length) (h : idx < s.file_diffs.length) :
    ∃ s2, s.select_file idx = some s2 ∧
      s2.current_file = idx ∧
      s2.diff_fullscreen = DiffFullscreen.none ∧
      s2.h_scroll = 0 ∧
      s2.scroll = (match (find_hunk_starts (compute_side_by_side
          (s.file_diffs.getD idx fd0).old_content
          (s.file_diffs.getD idx fd0).new_content s.settings.tab_width)).head? with
        | some h0 => (h0 % 65536) - 5
        | none => 0) := by
  unfold AppState.select_file
  rw [if_pos h]
  exact ⟨_, rfl, rfl, rfl, rfl, rfl⟩

/-- Claim C7, witness: instantiation on the concrete one-file state. -/
theorem select_file_resets_witness :
    ∃ s2, AppState.select_file baseState 0 = some s2 ∧
      s2.current_file = 0 ∧
      s2.diff_fullscreen = DiffFullscreen.none ∧
      s2.h_scroll = 0 ∧
      s2.scroll = (match (find_hunk_starts (compute_side_by_side
          (baseState.file_diffs.getD 0 fd0).old_content
          (baseState.file_diffs.getD 0 fd0).new_content baseState.settings.tab_width)).head? with
        | some h0 => (h0 % 65536) - 5
        | none => 0) :=
  select_file_resets baseState 0 (by decide) (by decide)

/-- Claim C9: the search engine yields zero matches for the empty query on
every content, while the same match recomputation does find occurrences for
a non-empty query, so the empty-query guard is what makes the count zero. -/
theorem empty_query_no_matches :
    (∀ (st : SearchState) (lines : List (DiffLine (List Char))),
        (st.update_query [] lines).match_count = 0) ∧
    (SearchState.match_count ⟨SearchMode.inactive, ['a'],
        recompute_matches ['a'] [⟨some (1, ['a', 'b', 'a']), none, ChangeType.equal⟩],
        none⟩ = 2) := by
  constructor
  · intro st lines
    simp [SearchState.update_query, SearchState.match_count, recompute_matches]
  · decide

/-- Specification of position? on success: the found index holds an element
satisfying the predicate and every earlier index does not. -/
theorem position?_some_spec (p : α → Bool) :
    ∀ (l : List α) (k : Nat), position? p l = some k →
      ∃ a, l[k]? = some a ∧ p a = true ∧
        ∀ j b, j < k → l[j]? = some b → p b = false := by
  intro l
  induction l with
  | nil => intro k h; simp [position?] at h
  | cons x xs ih =>
    intro k h
    by_cases hx : p x
    · simp [position?, hx] at h
      subst h
      exact ⟨x, by simp, hx, by omega⟩
    · simp [position?, hx] at h
      obtain ⟨m, hm, hk⟩ := h
      obtain ⟨a, ha, hpa, hmin⟩ := ih m hm
      refine ⟨a, ?_, hpa, ?_⟩
      · rw [← hk]; simpa using ha
      · intro j b hj hjb
        cases j with
        | zero =>
          simp at hjb
          rw [← hjb]
          exact Bool.of_not_eq_true hx
        | succ j2 =>
          simp at hjb
          exact hmin j2 b (by omega) hjb

/-- Specification of position? on failure: no element satisfies the
predicate. -/
theorem position?_none_spec (p : α → Bool) :
    ∀ (l : List α), position? p l = none →
      ∀ (j : Nat) (a : α), l[j]? = some a → p a = false := by
  intro l
  induction l with
  | nil =>
    intro _ j a ha
    rw [List.getElem?_nil] at ha
    exact absurd ha (by simp)
  | cons x xs ih =>
    intro h j a ha
    by_cases hx : p x
    · simp [position?, hx] at h
    · simp [position?, hx] at h
      cases j with
      | zero =>
        simp at ha
        rw [← ha]
        exact Bool.of_not_eq_true hx
      | succ j2 =>
        simp at ha
        exact ih h j2 a ha

/-- Claim C1, counterexample: a reload with an empty new file list preserves
the prior scroll instead of resetting it to 0, because the scroll-handling
branch of reload is only entered for a non-empty list; the state here is the
concrete one-file state scrolled to 3. -/
theorem reload_empty_scroll_counterexample :
    ¬ ((AppState.reload { baseState with scroll := 3 } [] none).scroll = 0) := by
  decide

/-- Claim C1 (amended): for a session state satisfying the documented index
invariant, a reload with an empty new file list resolves current_file and
sidebar_selected to 0, empties the file list and the viewed set, and leaves
both scroll offsets unchanged rather than resetting scroll to 0; no indexing
into the empty list takes place. -/
theorem reload_empty_defaults (s : AppState) (ch : Option (Finset (List Char)))
    (hinv : s.current_file < s.file_diffs.length ∨ s.current_file = 0) :
    (s.reload [] ch).current_file = 0 ∧
    (s.reload [] ch).sidebar_selected = 0 ∧
    (s.reload [] ch).scroll = s.scroll ∧
    (s.reload [] ch).h_scroll = s.h_scroll ∧
    (s.reload [] ch).file_diffs = [] ∧
    (s.reload [] ch).viewed_files = ∅ := by
  have hbt : build_file_tree [] = [] := rfl
  simp only [AppState.reload, hbt, position?, List.length_nil, List.isEmpty_nil,
    Finset.range_zero, Finset.filter_empty, Option.getD_none, if_true]
  refine ⟨?_, trivial, trivial, trivial, trivial, trivial⟩
  rw [if_neg (by simp)]
  cases hg : s.file_diffs.get? s.current_file with
  | some fd => simp
  | none =>
    have hlen := List.get?_eq_none.mp hg
    rcases hinv with hlt | h0
    · omega
    · simp [h0]

/-- Claim C1, witness: instantiation of the amended reload theorem on the
concrete one-file state. -/
theorem reload_empty_defaults_witness :
    (AppState.reload baseState [] none).current_file = 0 ∧
    (AppState.reload baseState [] none).sidebar_selected = 0 ∧
    (AppState.reload baseState [] none).scroll = baseState.scroll ∧
    (AppState.reload baseState [] none).h_scroll = baseState.h_scroll ∧
    (AppState.reload baseState [] none).file_diffs = [] ∧
    (AppState.reload baseState [] none).viewed_files = ∅ :=
  reload_empty_defaults baseState none (Or.inr rfl)

/-- Claim C3: after a reload with a non-empty new list, the current file is
re-resolved to the first entry of the new list carrying the filename of the
previously current file, and to 0 when no entry carries it. -/
theorem reload_current_file_resolution (s : AppState) (new : List FileDiff)
    (ch : Option (Finset (List Char))) (fd : FileDiff)
    (hget : s.file_diffs.get? s.current_file = some fd)
    (hnew : new ≠ []) :
    ((∃ (j : Nat) (fd2 : FileDiff), new[j]? = some fd2 ∧ fd2.filename = fd.filename) →
      ∃ fd2, new[(s.reload new ch).current_file]? = some fd2 ∧
        fd2.filename = fd.filename ∧
        ∀ (j : Nat) (fd3 : FileDiff), j < (s.reload new ch).current_file →
          new[j]? = some fd3 → fd3.filename ≠ fd.filename) ∧
    ((∀ (j : Nat) (fd2 : FileDiff), new[j]? = some fd2 → fd2.filename ≠ fd.filename) →
      (s.reload new ch).current_file = 0) := by
  have hlen : new.length ≠ 0 := by
    intro h
    exact hnew (List.eq_nil_of_length_eq_zero h)
  have hproj : (s.reload new ch).current_file =
      (if new.length ≤ (position? (fun f => f.filename == fd.filename) new).getD 0 ∧
          new.length ≠ 0 then new.length - 1
       else (position? (fun f => f.filename == fd.filename) new).getD 0) := by
    simp only [AppState.reload, hget]
    rfl
  rw [hproj]
  cases hp : position? (fun f => f.filename == fd.filename) new with
  | none =>
    have hnone := position?_none_spec _ _ hp
    simp only [hp, Option.getD_none]
    rw [if_neg (by omega)]
    constructor
    · intro ⟨j, fd2, hj, hfn⟩
      have := hnone j fd2 hj
      simp [hfn] at this
    · intro _
      rfl
  | some k =>
    obtain ⟨a, ha, hpa, hmin⟩ := position?_some_spec _ _ _ hp
    have hk : k < new.length := by
      by_contra hc
      rw [List.getElem?_eq_none (by omega)] at ha
      exact absurd ha (by simp)
    simp only [hp, Option.getD_some]
    rw [if_neg (by omega)]
    constructor
    · intro _
      refine ⟨a, ha, by simpa using hpa, ?_⟩
      intro j fd3 hj hjget heq
      have := hmin j fd3 hj hjget
      simp [heq] at this
    · intro hall
      have := hall k a ha
      simp at hpa
      exact absurd hpa this

/-- Claim C3, witness: reloading the concrete one-file state with a two-file
list whose second entry carries the old filename re-resolves the current
file to that entry. -/
theorem reload_current_file_resolution_witness :
    ∃ fd2, [fdB, fdA][(AppState.reload baseState [fdB, fdA] none).current_file]? = some fd2 ∧
      fd2.filename = fdA.filename ∧
      ∀ (j : Nat) (fd3 : FileDiff), j < (AppState.reload baseState [fdB, fdA] none).current_file →
        [fdB, fdA][j]? = some fd3 → fd3.filename ≠ fdA.filename :=
  (reload_current_file_resolution baseState [fdB, fdA] none fdA rfl (by decide)).1
    ⟨1, fdA, by decide, rfl⟩

/-- Claim C2: after a reload, a new-list index is in the viewed set exactly
when its filename was viewed before the reload and is not in the changed
set; viewed status is carried by filename, independent of index shifts. -/
theorem reload_viewed_by_filename (s : AppState) (new : List FileDiff)
    (ch : Finset (List Char)) (i : Nat) :
    i ∈ (s.reload new (some ch)).viewed_files ↔
      i < new.length ∧
      (∃ j ∈ s.viewed_files, j < s.file_diffs.length ∧
        (s.file_diffs.getD j fd0).filename = (new.getD i fd0).filename) ∧
      (new.getD i fd0).filename ∉ ch := by
  simp only [AppState.reload]
  simp only [Finset.mem_filter, Finset.mem_range, Finset.mem_sdiff, Finset.mem_image]
  tauto

theorem dropWhile_len_le (p : α → Bool) :
    ∀ (l : List α), (l.dropWhile p).length ≤ l.length := by
  intro l
  induction l with
  | nil => simp [List.dropWhile]
  | cons x xs ih =>
    by_cases h : p x
    · rw [List.dropWhile_cons_of_pos h]
      exact le_trans ih (by simp)
    · rw [List.dropWhile_cons_of_neg h]

theorem pairReplaceFuel_eq (n : Nat) :
    ∀ (ts : List (Tag α)), ts.length ≤ n →
      pairReplaceFuel n ts = pairReplaceFuel ts.length ts := by
  induction n using Nat.strong_induction_on with
  | _ n ih =>
    intro ts hlen
    match n, ts with
    | n, [] =>
      cases n <;> rfl
    | n + 1, Tag.eq a :: rest =>
      show PTag.peq a :: pairReplaceFuel n rest = PTag.peq a :: pairReplaceFuel rest.length rest
      rw [ih n (by omega) rest (by simp at hlen; omega)]
    | n + 1, Tag.ins b :: rest =>
      show PTag.pins b :: pairReplaceFuel n rest = PTag.pins b :: pairReplaceFuel rest.length rest
      rw [ih n (by omega) rest (by simp at hlen; omega)]
    | n + 1, Tag.del a :: rest =>
      have h3 : ((rest.dropWhile Tag.isDel).dropWhile Tag.isIns).length ≤ rest.length :=
        le_trans (dropWhile_len_le _ _) (dropWhile_len_le _ _)
      show zipMod _ _ ++ pairReplaceFuel n ((rest.dropWhile Tag.isDel).dropWhile Tag.isIns) =
        zipMod _ _ ++ pairReplaceFuel rest.length ((rest.dropWhile Tag.isDel).dropWhile Tag.isIns)
      have hr : rest.length ≤ n := by simp at hlen; omega
      rw [ih n (by omega) _ (le_trans h3 hr)]
      by_cases hn : rest.length < n + 1
      · rw [ih rest.length hn _ h3]
      · omega

theorem pairReplace_eq_cons (a : α) (rest : List (Tag α)) :
    pairReplace (Tag.eq a :: rest) = PTag.peq a :: pairReplace rest := rfl

theorem pairReplace_ins_cons (b : α) (rest : List (Tag α)) :
    pairReplace (Tag.ins b :: rest) = PTag.pins b :: pairReplace rest := rfl

theorem pairReplace_del_cons (a : α) (rest : List (Tag α)) :
    pairReplace (Tag.del a :: rest) =
      zipMod (a :: delPayloads (rest.takeWhile Tag.isDel))
          (insPayloads ((rest.dropWhile Tag.isDel).takeWhile Tag.isIns)) ++
        pairReplace ((rest.dropWhile Tag.isDel).dropWhile Tag.isIns) := by
  show zipMod _ _ ++ pairReplaceFuel rest.length ((rest.dropWhile Tag.isDel).dropWhile Tag.isIns) =
    zipMod _ _ ++ pairReplaceFuel ((rest.dropWhile Tag.isDel).dropWhile Tag.isIns).length
      ((rest.dropWhile Tag.isDel).dropWhile Tag.isIns)
  rw [pairReplaceFuel_eq rest.length _ (le_trans (dropWhile_len_le _ _) (dropWhile_len_le _ _))]

theorem lcsFuel_sublist [DecidableEq α] (n : Nat) :
    ∀ (xs ys : List α),
      List.Sublist (lcsFuel n xs ys) xs ∧ List.Sublist (lcsFuel n xs ys) ys := by
  induction n with
  | zero =>
    intro xs ys
    simp [lcsFuel]
  | succ n ih =>
    intro xs ys
    match xs, ys with
    | [], ys => simp [lcsFuel]
    | x :: xs, [] => simp [lcsFuel]
    | a :: as, b :: bs =>
      rw [lcsFuel]
      by_cases hab : a = b
      · rw [if_pos hab]
        obtain ⟨h1, h2⟩ := ih as bs
        subst hab
        exact ⟨h1.cons₂ a, h2.cons₂ a⟩
      · rw [if_neg hab]
        obtain ⟨ha1, ha2⟩ := ih (a :: as) bs
        obtain ⟨hb1, hb2⟩ := ih as (b :: bs)
        by_cases hl : (lcsFuel n (a :: as) bs).length < (lcsFuel n as (b :: bs)).length
        · rw [if_pos hl]
          exact ⟨hb1.cons a, hb2⟩
        · rw [if_neg hl]
          exact ⟨ha1, ha2.cons b⟩

theorem lcs_sublist [DecidableEq α] (xs ys : List α) :
    List.Sublist (lcs xs ys) xs ∧ List.Sublist (lcs xs ys) ys :=
  lcsFuel_sublist (xs.length + ys.length) xs ys

theorem dropWhile_ne_cons [DecidableEq α] (c : α) :
    ∀ (l : List α), c ∈ l →
      l.dropWhile (fun x => x != c) =
        c :: (l.dropWhile (fun x => x != c)).tail := by
  intro l
  induction l with
  | nil => intro h; simp at h
  | cons a l ih =>
    intro h
    by_cases hac : a = c
    · subst hac
      rw [List.dropWhile_cons_of_neg (by simp)]
      rfl
    · rw [List.dropWhile_cons_of_pos (by simp [hac])]
      have : c ∈ l := by
        rcases List.mem_cons.mp h with h1 | h1
        · exact absurd h1.symm hac
        · exact h1
      exact ih this

theorem sublist_tail_dropWhile [DecidableEq α] (c : α) (cs : List α) :
    ∀ (l : List α), List.Sublist (c :: cs) l →
      List.Sublist cs ((l.dropWhile (fun x => x != c)).tail) := by
  intro l
  induction l with
  | nil => intro h; cases h
  | cons a l ih =>
    intro h
    by_cases hac : a = c
    · subst hac
      rw [List.dropWhile_cons_of_neg (by simp)]
      cases h with
      | cons _ h2 =>
        exact (List.sublist_cons_self a cs).trans h2
      | cons₂ _ h2 => exact h2
    · rw [List.dropWhile_cons_of_pos (by simp [hac])]
      cases h with
      | cons _ h2 => exact ih h2
      | cons₂ _ h2 => exact absurd rfl hac

theorem oldsOfTags_map_del (l : List α) : oldsOfTags (l.map Tag.del) = l := by
  induction l <;> simp_all [oldsOfTags]

theorem oldsOfTags_map_ins (l : List α) : oldsOfTags (l.map Tag.ins) = [] := by
  induction l <;> simp_all [oldsOfTags]

theorem newsOfTags_map_del (l : List α) : newsOfTags (l.map Tag.del) = [] := by
  induction l <;> simp_all [newsOfTags]

theorem newsOfTags_map_ins (l : List α) : newsOfTags (l.map Tag.ins) = l := by
  induction l <;> simp_all [newsOfTags]

theorem oldsOfTags_append (l1 l2 : List (Tag α)) :
    oldsOfTags (l1 ++ l2) = oldsOfTags l1 ++ oldsOfTags l2 := by
  simp [oldsOfTags, List.filterMap_append]

theorem newsOfTags_append (l1 l2 : List (Tag α)) :
    newsOfTags (l1 ++ l2) = newsOfTags l1 ++ newsOfTags l2 := by
  simp [newsOfTags, List.filterMap_append]

theorem alignRaw_conserves [DecidableEq α] :
    ∀ (cs olds news : List α), List.Sublist cs olds → List.Sublist cs news →
      oldsOfTags (alignRaw olds news cs) = olds ∧
      newsOfTags (alignRaw olds news cs) = news := by
  intro cs
  induction cs with
  | nil =>
    intro olds news _ _
    rw [alignRaw]
    rw [oldsOfTags_append, newsOfTags_append, oldsOfTags_map_del, oldsOfTags_map_ins,
      newsOfTags_map_del, newsOfTags_map_ins]
    simp
  | cons c cs ih =>
    intro olds news ho hn
    have hco : c ∈ olds := ho.subset (List.mem_cons_self c cs)
    have hcn : c ∈ news := hn.subset (List.mem_cons_self c cs)
    obtain ⟨iho, ihn⟩ := ih _ _ (sublist_tail_dropWhile c cs olds ho)
      (sublist_tail_dropWhile c cs news hn)
    rw [alignRaw]
    constructor
    · rw [oldsOfTags_append, oldsOfTags_append, oldsOfTags_map_del, oldsOfTags_map_ins]
      have hcons : oldsOfTags (Tag.eq c :: alignRaw
          ((olds.dropWhile fun x => x != c).tail)
          ((news.dropWhile fun x => x != c).tail) cs) =
          c :: (olds.dropWhile fun x => x != c).tail := by
        simp [oldsOfTags, List.filterMap_cons]
        rw [← oldsOfTags]
        exact iho
      rw [hcons]
      simp only [List.append_nil, List.nil_append]
      conv_rhs => rw [← List.takeWhile_append_dropWhile (fun x => x != c) olds,
        dropWhile_ne_cons c olds hco]
    · rw [newsOfTags_append, newsOfTags_append, newsOfTags_map_del, newsOfTags_map_ins]
      have hcons : newsOfTags (Tag.eq c :: alignRaw
          ((olds.dropWhile fun x => x != c).tail)
          ((news.dropWhile fun x => x != c).tail) cs) =
          c :: (news.dropWhile fun x => x != c).tail := by
        simp [newsOfTags, List.filterMap_cons]
        rw [← newsOfTags]
        exact ihn
      rw [hcons]
      simp only [List.append_nil, List.nil_append]
      conv_rhs => rw [← List.takeWhile_append_dropWhile (fun x => x != c) news,
        dropWhile_ne_cons c news hcn]

theorem oldsOfP_map_pdel (l : List α) : oldsOfP (l.map PTag.pdel) = l := by
  induction l <;> simp_all [oldsOfP]

theorem oldsOfP_map_pins (l : List α) : oldsOfP (l.map PTag.pins) = [] := by
  induction l <;> simp_all [oldsOfP]

theorem newsOfP_map_pdel (l : List α) : newsOfP (l.map PTag.pdel) = [] := by
  induction l <;> simp_all [newsOfP]

theorem newsOfP_map_pins (l : List α) : newsOfP (l.map PTag.pins) = l := by
  induction l <;> simp_all [newsOfP]

theorem oldsOfP_append (l1 l2 : List (PTag α)) :
    oldsOfP (l1 ++ l2) = oldsOfP l1 ++ oldsOfP l2 := by
  simp [oldsOfP, List.filterMap_append]

theorem newsOfP_append (l1 l2 : List (PTag α)) :
    newsOfP (l1 ++ l2) = newsOfP l1 ++ newsOfP l2 := by
  simp [newsOfP, List.filterMap_append]

theorem zipMod_olds : ∀ (ds is2 : List α), oldsOfP (zipMod ds is2) = ds := by
  intro ds
  induction ds with
  | nil => intro is2; rw [zipMod]; exact oldsOfP_map_pins is2
  | cons d ds ih =>
    intro is2
    cases is2 with
    | nil => rw [zipMod]; exact oldsOfP_map_pdel (d :: ds)
    | cons i is2 =>
      rw [zipMod]
      simp [oldsOfP, List.filterMap_cons]
      rw [← oldsOfP]
      exact ih is2

theorem zipMod_news : ∀ (ds is2 : List α), newsOfP (zipMod ds is2) = is2 := by
  intro ds
  induction ds with
  | nil => intro is2; rw [zipMod]; exact newsOfP_map_pins is2
  | cons d ds ih =>
    intro is2
    cases is2 with
    | nil => rw [zipMod]; exact newsOfP_map_pdel (d :: ds)
    | cons i is2 =>
      rw [zipMod]
      simp [newsOfP, List.filterMap_cons]
      rw [← newsOfP]
      exact ih is2

theorem tags_all_del (l : List (Tag α)) (h : ∀ t ∈ l, t.isDel = true) :
    oldsOfTags l = delPayloads l ∧ newsOfTags l = [] := by
  induction l with
  | nil => simp [oldsOfTags, newsOfTags, delPayloads]
  | cons t ts ih =>
    have ht : t.isDel = true := h t (List.mem_cons_self t ts)
    have hts := ih fun u hu => h u (List.mem_cons_of_mem t hu)
    cases t with
    | del a =>
      simp [oldsOfTags, newsOfTags, delPayloads, List.filterMap_cons] at hts ⊢
      exact hts
    | ins b => simp [Tag.isDel] at ht
    | eq a => simp [Tag.isDel] at ht

theorem tags_all_ins (l : List (Tag α)) (h : ∀ t ∈ l, t.isIns = true) :
    newsOfTags l = insPayloads l ∧ oldsOfTags l = [] := by
  induction l with
  | nil => simp [oldsOfTags, newsOfTags, insPayloads]
  | cons t ts ih =>
    have ht : t.isIns = true := h t (List.mem_cons_self t ts)
    have hts := ih fun u hu => h u (List.mem_cons_of_mem t hu)
    cases t with
    | ins b =>
      simp [oldsOfTags, newsOfTags, insPayloads, List.filterMap_cons] at hts ⊢
      exact hts
    | del a => simp [Tag.isIns] at ht
    | eq a => simp [Tag.isIns] at ht

theorem pairReplace_conserves_aux (n : Nat) :
    ∀ (ts : List (Tag α)), ts.length ≤ n →
      oldsOfP (pairReplace ts) = oldsOfTags ts ∧ newsOfP (pairReplace ts) = newsOfTags ts := by
  induction n with
  | zero =>
    intro ts h
    match ts with
    | [] => simp [pairReplace, pairReplaceFuel, oldsOfP, newsOfP, oldsOfTags, newsOfTags]
    | t :: rest => simp at h
  | succ n ih =>
    intro ts h
    match ts with
    | [] => simp [pairReplace, pairReplaceFuel, oldsOfP, newsOfP, oldsOfTags, newsOfTags]
    | Tag.eq a :: rest =>
      rw [pairReplace_eq_cons]
      have hr := ih rest (by simp at h; omega)
      simp [oldsOfP, newsOfP, oldsOfTags, newsOfTags, List.filterMap_cons] at hr ⊢
      exact hr
    | Tag.ins b :: rest =>
      rw [pairReplace_ins_cons]
      have hr := ih rest (by simp at h; omega)
      simp [oldsOfP, newsOfP, oldsOfTags, newsOfTags, List.filterMap_cons] at hr ⊢
      exact hr
    | Tag.del a :: rest =>
      rw [pairReplace_del_cons]
      have hdel : ∀ t ∈ rest.takeWhile Tag.isDel, t.isDel = true :=
        fun t ht => List.mem_takeWhile_imp ht
      have hins : ∀ t ∈ (rest.dropWhile Tag.isDel).takeWhile Tag.isIns, t.isIns = true :=
        fun t ht => List.mem_takeWhile_imp ht
      obtain ⟨hd1, hd2⟩ := tags_all_del _ hdel
      obtain ⟨hi1, hi2⟩ := tags_all_ins _ hins
      have hlen3 : ((rest.dropWhile Tag.isDel).dropWhile Tag.isIns).length ≤ n := by
        have h1 := dropWhile_len_le Tag.isIns (rest.dropWhile Tag.isDel)
        have h2 := dropWhile_len_le Tag.isDel rest
        simp at h
        omega
      obtain ⟨ih1, ih2⟩ := ih _ hlen3
      constructor
      · rw [oldsOfP_append, zipMod_olds, ih1]
        have hc : oldsOfTags (Tag.del a :: rest) = a :: oldsOfTags rest := by
          simp [oldsOfTags, List.filterMap_cons]
        rw [hc]
        conv_rhs => rw [← List.takeWhile_append_dropWhile Tag.isDel rest]
        rw [oldsOfTags_append]
        conv_rhs => rw [← List.takeWhile_append_dropWhile Tag.isIns (rest.dropWhile Tag.isDel)]
        rw [oldsOfTags_append, hd1, hi2]
        simp
      · rw [newsOfP_append, zipMod_news, ih2]
        have hc : newsOfTags (Tag.del a :: rest) = newsOfTags rest := by
          simp [newsOfTags, List.filterMap_cons]
        rw [hc]
        conv_rhs => rw [← List.takeWhile_append_dropWhile Tag.isDel rest]
        rw [newsOfTags_append]
        conv_rhs => rw [← List.takeWhile_append_dropWhile Tag.isIns (rest.dropWhile Tag.isDel)]
        rw [newsOfTags_append, hd2, hi1]
        simp

theorem pairReplace_conserves (ts : List (Tag α)) :
    oldsOfP (pairReplace ts) = oldsOfTags ts ∧ newsOfP (pairReplace ts) = newsOfTags ts :=
  pairReplace_conserves_aux ts.length ts (le_refl _)

theorem numberLines_conserves :
    ∀ (pts : List (PTag α)) (o n : Nat),
      oldsOfLines (numberLines pts o n) = oldsOfP pts ∧
      newsOfLines (numberLines pts o n) = newsOfP pts := by
  intro pts
  induction pts with
  | nil => intro o n; simp [numberLines, oldsOfLines, newsOfLines, oldsOfP, newsOfP]
  | cons t ts ih =>
    intro o n
    cases t with
    | peq a =>
      rw [numberLines]
      obtain ⟨ih1, ih2⟩ := ih (o + 1) (n + 1)
      simp only [oldsOfLines, newsOfLines, oldsOfP, newsOfP, List.filterMap_cons] at ih1 ih2 ⊢
      simp [ih1, ih2]
    | pdel a =>
      rw [numberLines]
      obtain ⟨ih1, ih2⟩ := ih (o + 1) n
      simp only [oldsOfLines, newsOfLines, oldsOfP, newsOfP, List.filterMap_cons] at ih1 ih2 ⊢
      simp [ih1, ih2]
    | pins b =>
      rw [numberLines]
      obtain ⟨ih1, ih2⟩ := ih o (n + 1)
      simp only [oldsOfLines, newsOfLines, oldsOfP, newsOfP, List.filterMap_cons] at ih1 ih2 ⊢
      simp [ih1, ih2]
    | pmod a b =>
      rw [numberLines]
      obtain ⟨ih1, ih2⟩ := ih (o + 1) (n + 1)
      simp only [oldsOfLines, newsOfLines, oldsOfP, newsOfP, List.filterMap_cons] at ih1 ih2 ⊢
      simp [ih1, ih2]

theorem filterMap_length_countP (g : β → Option γ) :
    ∀ l : List β, (l.filterMap g).length = l.countP fun b => (g b).isSome := by
  intro l
  induction l with
  | nil => simp
  | cons x xs ih =>
    cases hg : g x <;> simp [List.filterMap_cons, hg, List.countP_cons, ih]

/-- Claim C5: the alignment conserves both inputs: the old-side texts of the
aligned lines are exactly the old lines in order, the new-side texts exactly
the new lines in order, and the populated-side counts equal the input line
counts. -/
theorem alignment_conserves_inputs [DecidableEq α] (olds news : List α) :
    oldsOfLines (alignLines olds news) = olds ∧
    newsOfLines (alignLines olds news) = news ∧
    (alignLines olds news).countP (fun l => l.old_line.isSome) = olds.length ∧
    (alignLines olds news).countP (fun l => l.new_line.isSome) = news.length := by
  have hs := lcs_sublist olds news
  obtain ⟨h1, h2⟩ := alignRaw_conserves (lcs olds news) olds news hs.1 hs.2
  obtain ⟨p1, p2⟩ := pairReplace_conserves (alignRaw olds news (lcs olds news))
  obtain ⟨n1, n2⟩ := numberLines_conserves (pairReplace (alignRaw olds news (lcs olds news))) 1 1
  have ho : oldsOfLines (alignLines olds news) = olds := by
    rw [alignLines, n1, p1, h1]
  have hn : newsOfLines (alignLines olds news) = news := by
    rw [alignLines, n2, p2, h2]
  refine ⟨ho, hn, ?_, ?_⟩
  · conv_rhs => rw [← ho]
    rw [oldsOfLines, filterMap_length_countP]
    congr 1
    funext dl
    cases hdl : dl.old_line <;> simp [hdl]
  · conv_rhs => rw [← hn]
    rw [newsOfLines, filterMap_length_countP]
    congr 1
    funext dl
    cases hdl : dl.new_line <;> simp [hdl]

theorem delPayloads_map_del (l : List α) : delPayloads (l.map Tag.del) = l := by
  induction l <;> simp_all [delPayloads]

theorem insPayloads_map_ins (l : List α) : insPayloads (l.map Tag.ins) = l := by
  induction l <;> simp_all [insPayloads]

theorem pairReplace_ins_chain :
    ∀ (is2 : List α) (rest : List (Tag α)),
      pairReplace (is2.map Tag.ins ++ rest) = is2.map PTag.pins ++ pairReplace rest := by
  intro is2
  induction is2 with
  | nil => intro rest; simp
  | cons i is2 ih =>
    intro rest
    simp only [List.map_cons, List.cons_append]
    rw [pairReplace_ins_cons]
    simp [ih rest]

theorem head_eq_runs (rest : List (Tag α)) (h : rest.head?.all Tag.isEq = true) :
    rest.takeWhile Tag.isDel = [] ∧ rest.dropWhile Tag.isDel = rest ∧
    rest.takeWhile Tag.isIns = [] ∧ rest.dropWhile Tag.isIns = rest := by
  cases rest with
  | nil => simp
  | cons t ts =>
    simp only [List.head?_cons, Option.all_some] at h
    cases t with
    | eq a =>
      refine ⟨?_, ?_, ?_, ?_⟩
      · exact List.takeWhile_cons_of_neg (by simp [Tag.isDel])
      · exact List.dropWhile_cons_of_neg (by simp [Tag.isDel])
      · exact List.takeWhile_cons_of_neg (by simp [Tag.isIns])
      · exact List.dropWhile_cons_of_neg (by simp [Tag.isIns])
    | del a => simp [Tag.isEq] at h
    | ins b => simp [Tag.isEq] at h

theorem pairReplace_replace_run :
    ∀ (ds is2 : List α) (rest : List (Tag α)),
      rest.head?.all Tag.isEq = true →
      pairReplace (ds.map Tag.del ++ is2.map Tag.ins ++ rest) =
        zipMod ds is2 ++ pairReplace rest := by
  intro ds is2 rest h
  obtain ⟨htd, hdd, hti, hdi⟩ := head_eq_runs rest h
  cases ds with
  | nil =>
    simp only [List.map_nil, List.nil_append]
    rw [pairReplace_ins_chain, zipMod]
  | cons d ds =>
    simp only [List.map_cons, List.cons_append, List.append_assoc]
    rw [pairReplace_del_cons]
    have hall : ∀ t ∈ ds.map Tag.del, Tag.isDel t = true := by
      intro t ht
      obtain ⟨x, _, hx⟩ := List.mem_map.mp ht
      rw [← hx]
      rfl
    have hdrun : (ds.map Tag.del ++ (is2.map Tag.ins ++ rest)).takeWhile Tag.isDel =
        ds.map Tag.del := by
      rw [List.takeWhile_append_of_pos hall]
      cases is2 with
      | nil =>
        simp only [List.map_nil, List.nil_append, htd, List.append_nil]
      | cons i is2 =>
        rw [List.map_cons, List.cons_append, List.takeWhile_cons_of_neg (by simp [Tag.isDel])]
        simp
    have hrest2 : (ds.map Tag.del ++ (is2.map Tag.ins ++ rest)).dropWhile Tag.isDel =
        is2.map Tag.ins ++ rest := by
      rw [List.dropWhile_append_of_pos hall]
      cases is2 with
      | nil => simp only [List.map_nil, List.nil_append, hdd]
      | cons i is2 =>
        rw [List.map_cons, List.cons_append, List.dropWhile_cons_of_neg (by simp [Tag.isDel])]
    have halli : ∀ t ∈ is2.map Tag.ins, Tag.isIns t = true := by
      intro t ht
      obtain ⟨x, _, hx⟩ := List.mem_map.mp ht
      rw [← hx]
      rfl
    have hirun : (is2.map Tag.ins ++ rest).takeWhile Tag.isIns = is2.map Tag.ins := by
      rw [List.takeWhile_append_of_pos halli, hti, List.append_nil]
    have hrest3 : (is2.map Tag.ins ++ rest).dropWhile Tag.isIns = rest := by
      rw [List.dropWhile_append_of_pos halli, hdi]
    rw [hdrun, hrest2, hirun, hrest3, delPayloads_map_del, insPayloads_map_ins]

theorem zipMod_eq_zip_append :
    ∀ (ds is2 : List α),
      zipMod ds is2 =
        (List.zipWith PTag.pmod ds is2) ++
        (ds.drop is2.length).map PTag.pdel ++ (is2.drop ds.length).map PTag.pins := by
  intro ds
  induction ds with
  | nil => intro is2; rw [zipMod]; simp
  | cons d ds ih =>
    intro is2
    cases is2 with
    | nil => rw [zipMod]; simp
    | cons i is2 =>
      rw [zipMod]
      simp [ih is2]

/-- Claim C6: within a maximal run of deleted lines immediately followed by
inserted lines the pairing is positional up to the shorter length with the
pairs Modified and the surplus Delete or Insert, and on the concrete inputs
of the claim the alignment has exactly one hunk at index 1, index 1 Modified
pairing b with x, and indices 0 and 2 Equal. -/
theorem replace_pairing :
    (∀ (ds is2 : List (List Char)) (rest : List (Tag (List Char))),
        rest.head?.all Tag.isEq = true →
        pairReplace (ds.map Tag.del ++ is2.map Tag.ins ++ rest) =
          (List.zipWith PTag.pmod ds is2) ++ (ds.drop is2.length).map PTag.pdel ++
            (is2.drop ds.length).map PTag.pins ++ pairReplace rest) ∧
    (compute_side_by_side ['a', '\n', 'b', '\n', 'c', '\n'] ['a', '\n', 'x', '\n', 'c', '\n'] 4 =
      [⟨some (1, ['a']), some (1, ['a']), ChangeType.equal⟩,
       ⟨some (2, ['b']), some (2, ['x']), ChangeType.modified⟩,
       ⟨some (3, ['c']), some (3, ['c']), ChangeType.equal⟩]) ∧
    find_hunk_starts (compute_side_by_side ['a', '\n', 'b', '\n', 'c', '\n']
        ['a', '\n', 'x', '\n', 'c', '\n'] 4) = [1] := by
  refine ⟨?_, by decide, by decide⟩
  intro ds is2 rest h
  rw [pairReplace_replace_run ds is2 rest h, zipMod_eq_zip_append]

/-- Claim C6, witness: the replace-run pairing equation instantiated on a
one-line deleted run, one-line inserted run and an Equal tail. -/
theorem replace_pairing_witness :
    pairReplace (([['b']] : List (List Char)).map Tag.del ++
        ([['x']] : List (List Char)).map Tag.ins ++ [Tag.eq ['c']]) =
      (List.zipWith PTag.pmod [['b']] [['x']]) ++
        (([['b']] : List (List Char)).drop ([['x']] : List (List Char)).length).map PTag.pdel ++
        (([['x']] : List (List Char)).drop ([['b']] : List (List Char)).length).map PTag.pins ++
        pairReplace [Tag.eq ['c']] :=
  replace_pairing.1 [['b']] [['x']] [Tag.eq ['c']] (by decide)

theorem utf8Len_append : ∀ (a b : List Char), utf8Len (a ++ b) = utf8Len a + utf8Len b := by
  intro a b
  induction a with
  | nil => simp [utf8Len]
  | cons c a ih => simp [utf8Len, ih]; omega

theorem byteSplit_parts :
    ∀ (cs : List Char) (n : Nat) (a b : List Char),
      byteSplit cs n = some (a, b) → utf8Len a = n ∧ cs = a ++ b := by
  intro cs
  induction cs with
  | nil =>
    intro n a b h
    match n with
    | 0 =>
      simp [byteSplit] at h
      obtain ⟨h1, h2⟩ := h
      subst h1
      subst h2
      simp [utf8Len]
    | m + 1 => simp [byteSplit] at h
  | cons c cs ih =>
    intro n a b h
    match n with
    | 0 =>
      simp [byteSplit] at h
      obtain ⟨h1, h2⟩ := h
      subst h1
      subst h2
      simp [utf8Len]
    | m + 1 =>
      rw [byteSplit] at h
      by_cases hle : c.utf8Size ≤ m + 1
      · rw [if_pos hle] at h
        cases hsp : byteSplit cs (m + 1 - c.utf8Size) with
        | none => rw [hsp] at h; simp at h
        | some p =>
          rw [hsp] at h
          simp at h
          obtain ⟨hp1, hp2⟩ := ih (m + 1 - c.utf8Size) p.1 p.2 (by rw [hsp])
          rw [← h.1, ← h.2]
          constructor
          · simp [utf8Len, hp1]
            omega
          · simp [hp2]
      · rw [if_neg hle] at h
        simp at h

theorem byteSplit_append_left :
    ∀ (a b : List Char), byteSplit (a ++ b) (utf8Len a) = some (a, b) := by
  intro a
  induction a with
  | nil => intro b; simp [utf8Len, byteSplit]
  | cons c a ih =>
    intro b
    have hpos := c.utf8Size_pos
    obtain ⟨m, hm⟩ : ∃ m, utf8Len (c :: a) = m + 1 :=
      ⟨utf8Len (c :: a) - 1, by simp [utf8Len]; omega⟩
    rw [List.cons_append, hm, byteSplit]
    have hle : c.utf8Size ≤ m + 1 := by
      simp [utf8Len] at hm
      omega
    rw [if_pos hle]
    have harg : m + 1 - c.utf8Size = utf8Len a := by
      simp [utf8Len] at hm
      omega
    rw [harg, ih b]
    rfl

theorem byteSplit_add :
    ∀ (cs : List Char) (n m : Nat) (a b : List Char),
      byteSplit cs n = some (a, b) →
      byteSplit cs (n + m) = (byteSplit b m).map fun p => (a ++ p.1, p.2) := by
  intro cs
  induction cs with
  | nil =>
    intro n m a b h
    match n with
    | 0 =>
      simp [byteSplit] at h
      obtain ⟨h1, h2⟩ := h
      subst h1
      subst h2
      simp only [Nat.zero_add]
      cases hm : byteSplit ([] : List Char) m with
      | none => simp [hm]
      | some p => simp [hm]
    | k + 1 => simp [byteSplit] at h
  | cons c cs ih =>
    intro n m a b h
    match n with
    | 0 =>
      simp [byteSplit] at h
      obtain ⟨h1, h2⟩ := h
      subst h1
      subst h2
      simp only [Nat.zero_add]
      cases hm : byteSplit (c :: cs) m with
      | none => simp [hm]
      | some p => simp [hm]
    | k + 1 =>
      rw [byteSplit] at h
      by_cases hle : c.utf8Size ≤ k + 1
      · rw [if_pos hle] at h
        cases hsp : byteSplit cs (k + 1 - c.utf8Size) with
        | none => rw [hsp] at h; simp at h
        | some p =>
          rw [hsp] at h
          simp at h
          obtain ⟨a2, ha2⟩ : ∃ a2, a = c :: a2 := ⟨p.1, by rw [← h.1]⟩
          have hb : byteSplit cs (k + 1 - c.utf8Size) = some (a2, b) := by
            rw [hsp]
            rw [ha2] at h
            simp at h
            simp [← h.1, ← h.2]
          have hstep : byteSplit (c :: cs) (k + 1 + m) =
              (byteSplit cs (k + 1 + m - c.utf8Size)).map fun p => (c :: p.1, p.2) := by
            obtain ⟨j, hj⟩ : ∃ j, k + 1 + m = j + 1 := ⟨k + m, by omega⟩
            rw [hj, byteSplit, if_pos (by omega)]
          rw [hstep]
          have harg : k + 1 + m - c.utf8Size = (k + 1 - c.utf8Size) + m := by omega
          rw [harg, ih (k + 1 - c.utf8Size) m a2 b hb]
          cases byteSplit b m with
          | none => simp
          | some q => simp [ha2]
      · rw [if_neg hle] at h
        simp at h


theorem utf8Len_eq_zero : ∀ (l : List Char), utf8Len l = 0 → l = [] := by
  intro l h
  cases l with
  | nil => rfl
  | cons c cs =>
    have := c.utf8Size_pos
    simp [utf8Len] at h
    omega

theorem byteSplit_prefix :
    ∀ (x y : List Char) (m : Nat), (byteSplit (x ++ y) m).isSome = true → m ≤ utf8Len x →
      (byteSplit x m).isSome = true := by
  intro x y m hs hm
  obtain ⟨⟨a, b⟩, hab⟩ := Option.isSome_iff_exists.mp hs
  obtain ⟨hlen, happ⟩ := byteSplit_parts (x ++ y) m a b hab
  rcases (List.append_eq_append_iff.mp happ.symm) with ⟨a2, hx, _⟩ | ⟨c2, hha, _⟩
  · rw [hx, ← hlen, byteSplit_append_left]
    rfl
  · have hlc2 : utf8Len a = utf8Len x + utf8Len c2 := by
      rw [hha, utf8Len_append]
    have hc2 : c2 = [] := utf8Len_eq_zero c2 (by omega)
    rw [hc2, List.append_nil] at hha
    subst hha
    have hx : m = utf8Len a := hlen.symm
    have hba : byteSplit (a ++ []) (utf8Len a) = some (a, []) := byteSplit_append_left a []
    rw [List.append_nil] at hba
    rw [hx, hba]
    rfl

theorem overlayGo_isSome (spanText : List Char) (charPos : Nat) :
    ∀ (ranges : List (Nat × Nat × Bool)) (currentPos : Nat) (pre remaining : List Char)
      (acc : List (List Char)),
      byteSplit spanText currentPos = some (pre, remaining) →
      (∀ r ∈ ranges, charPos < r.2.1 → r.1 < charPos + utf8Len spanText →
          isBoundary spanText (min (r.2.1 - charPos) (utf8Len spanText)) = true ∧
          (charPos ≤ r.1 → isBoundary spanText (r.1 - charPos) = true)) →
      (∀ r ∈ ranges, r.2.1 ≤ charPos ∨
          currentPos ≤ min (r.2.1 - charPos) (utf8Len spanText)) →
      List.Pairwise (fun r1 r2 => r1.2.1 ≤ r2.2.1) ranges →
      (overlayGo spanText charPos ranges currentPos remaining acc).isSome = true := by
  intro ranges
  induction ranges with
  | nil =>
    intro currentPos pre remaining acc _ _ _ _
    rw [overlayGo]
    simp
  | cons r rest ih =>
    intro currentPos pre remaining acc hsplit hb hlo hpw
    obtain ⟨ms, me, bflag⟩ := r
    obtain ⟨hhead, hptail⟩ := List.pairwise_cons.mp hpw
    rw [overlayGo]
    by_cases hskip : me ≤ charPos ∨ charPos + utf8Len spanText ≤ ms
    · rw [if_pos hskip]
      exact ih currentPos pre remaining acc hsplit
        (fun r2 h2 => hb r2 (List.mem_cons_of_mem _ h2))
        (fun r2 h2 => hlo r2 (List.mem_cons_of_mem _ h2)) hptail
    · rw [if_neg hskip]
      push_neg at hskip
      obtain ⟨hme, hms⟩ := hskip
      obtain ⟨hpre, hsp⟩ := byteSplit_parts spanText currentPos pre remaining hsplit
      have hLsplit : utf8Len spanText = currentPos + utf8Len remaining := by
        rw [hsp, utf8Len_append, hpre]
      have htrans : ∀ q : Nat, currentPos ≤ q → (byteSplit spanText q).isSome = true →
          (byteSplit remaining (q - currentPos)).isSome = true := by
        intro q hq hbq
        have hadd := byteSplit_add spanText currentPos (q - currentPos) pre remaining hsplit
        rw [Nat.add_sub_cancel' hq] at hadd
        rw [hadd] at hbq
        cases hr : byteSplit remaining (q - currentPos) with
        | none => rw [hr] at hbq; simp at hbq
        | some p => rfl
      have hbr := hb (ms, me, bflag) (List.mem_cons_self _ _) hme hms
      have hbE : isBoundary spanText (min (me - charPos) (utf8Len spanText)) = true := hbr.1
      have hbS : charPos ≤ ms → isBoundary spanText (ms - charPos) = true := hbr.2
      have hre_ge : currentPos ≤ min (me - charPos) (utf8Len spanText) := by
        rcases hlo (ms, me, bflag) (List.mem_cons_self _ _) with h1 | h1
        · simp at h1
          omega
        · exact h1
      rw [if_neg (Nat.not_lt.mpr hre_ge)]
      have hmpe_some : (byteSplit remaining
          (min (me - charPos) (utf8Len spanText) - currentPos)).isSome = true :=
        htrans _ hre_ge hbE
      have hacc1 : ∃ acc1, beforeStep remaining currentPos (ms - charPos) acc = some acc1 := by
        unfold beforeStep
        by_cases hc1 : currentPos < ms - charPos
        · rw [if_pos hc1]
          have hcm : charPos ≤ ms := by omega
          have h1 := htrans (ms - charPos) (le_of_lt hc1) (hbS hcm)
          obtain ⟨p, hp⟩ := Option.isSome_iff_exists.mp h1
          refine ⟨pushFrag acc p.1, ?_⟩
          rw [byteTake, hp]
          rfl
        · rw [if_neg hc1]
          exact ⟨acc, rfl⟩
      obtain ⟨acc1, hacc1⟩ := hacc1
      simp only [hacc1]
      have hacc2 : ∃ acc2, matchStep remaining (max (ms - charPos) currentPos - currentPos)
          (min (me - charPos) (utf8Len spanText) - currentPos) acc1 = some acc2 := by
        unfold matchStep
        by_cases hc2 : max (ms - charPos) currentPos - currentPos <
            min (me - charPos) (utf8Len spanText) - currentPos
        · rw [if_pos hc2]
          have hdrop : (byteSplit remaining
              (max (ms - charPos) currentPos - currentPos)).isSome = true := by
            by_cases hrc : ms - charPos ≤ currentPos
            · have hz : max (ms - charPos) currentPos - currentPos = 0 := by
                rw [Nat.max_eq_right hrc]
                omega
              rw [hz, byteSplit]
              rfl
            · push_neg at hrc
              have hcm : charPos ≤ ms := by omega
              rw [Nat.max_eq_left (le_of_lt hrc)]
              exact htrans (ms - charPos) (le_of_lt hrc) (hbS hcm)
          obtain ⟨⟨u, v⟩, huv⟩ := Option.isSome_iff_exists.mp hdrop
          have hcomp := byteSplit_add remaining (max (ms - charPos) currentPos - currentPos)
            ((min (me - charPos) (utf8Len spanText) - currentPos) -
              (max (ms - charPos) currentPos - currentPos)) u v huv
          rw [Nat.add_sub_cancel' (le_of_lt hc2)] at hcomp
          rw [hcomp] at hmpe_some
          have hvtake : (byteSplit v ((min (me - charPos) (utf8Len spanText) - currentPos) -
              (max (ms - charPos) currentPos - currentPos))).isSome = true := by
            cases hv : byteSplit v ((min (me - charPos) (utf8Len spanText) - currentPos) -
                (max (ms - charPos) currentPos - currentPos)) with
            | none => rw [hv] at hmpe_some; simp at hmpe_some
            | some q => rfl
          obtain ⟨q, hq⟩ := Option.isSome_iff_exists.mp hvtake
          refine ⟨pushFrag acc1 q.1, ?_⟩
          rw [byteSlice, if_neg (by omega), byteDrop, huv]
          show (byteTake v _).map (pushFrag acc1) = _
          rw [byteTake, hq]
          rfl
        · rw [if_neg hc2]
          exact ⟨acc1, rfl⟩
      obtain ⟨acc2, hacc2⟩ := hacc2
      simp only [hacc2]
      have hminrem : min (min (me - charPos) (utf8Len spanText) - currentPos)
          (utf8Len remaining) = min (me - charPos) (utf8Len spanText) - currentPos := by
        apply Nat.min_eq_left
        have := Nat.min_le_right (me - charPos) (utf8Len spanText)
        omega
      obtain ⟨q, hq⟩ := Option.isSome_iff_exists.mp hmpe_some
      have hdrop2 : byteDrop remaining (min (min (me - charPos) (utf8Len spanText) - currentPos)
          (utf8Len remaining)) = some q.2 := by
        rw [hminrem, byteDrop, hq]
        rfl
      simp only [hdrop2]
      have hsplit2 : byteSplit spanText (min (me - charPos) (utf8Len spanText)) =
          some (pre ++ q.1, q.2) := by
        have hadd := byteSplit_add spanText currentPos
          (min (me - charPos) (utf8Len spanText) - currentPos) pre remaining hsplit
        rw [Nat.add_sub_cancel' hre_ge] at hadd
        rw [hadd, hq]
        rfl
      apply ih (min (me - charPos) (utf8Len spanText)) (pre ++ q.1) q.2 acc2 hsplit2
        (fun r2 h2 => hb r2 (List.mem_cons_of_mem _ h2))
      · intro r2 h2
        right
        have hr2 : me ≤ r2.2.1 := hhead r2 h2
        exact min_le_min (by omega) (le_refl _)
      · exact hptail

theorem byteSplit_zero (cs : List Char) : byteSplit cs 0 = some ([], cs) := by
  cases cs <;> rfl

theorem byteSplit_self (s : List Char) : byteSplit s (utf8Len s) = some (s, []) := by
  have h := byteSplit_append_left s []
  rw [List.append_nil] at h
  exact h

theorem boundary_restrict (pre s tailText : List Char) (q : Nat)
    (hb : isBoundary (pre ++ (s ++ tailText)) q = true) (h1 : utf8Len pre ≤ q)
    (h2 : q - utf8Len pre ≤ utf8Len s) : isBoundary s (q - utf8Len pre) = true := by
  unfold isBoundary at hb ⊢
  have hsp := byteSplit_append_left pre (s ++ tailText)
  have hadd := byteSplit_add (pre ++ (s ++ tailText)) (utf8Len pre) (q - utf8Len pre)
    pre (s ++ tailText) hsp
  rw [Nat.add_sub_cancel' h1] at hadd
  rw [hadd] at hb
  have hinner : (byteSplit (s ++ tailText) (q - utf8Len pre)).isSome = true := by
    cases hi : byteSplit (s ++ tailText) (q - utf8Len pre) with
    | none => rw [hi] at hb; simp at hb
    | some p => rfl
  exact byteSplit_prefix s tailText (q - utf8Len pre) hinner h2

theorem overlaySpans_isSome (full : List Char) (ranges : List (Nat × Nat × Bool))
    (hpw : List.Pairwise (fun r1 r2 => r1.2.1 ≤ r2.2.1) ranges)
    (hb : ∀ r ∈ ranges, isBoundary full r.1 = true ∧ isBoundary full r.2.1 = true) :
    ∀ (spans : List (List Char)) (pre : List Char),
      full = pre ++ catMap id spans →
      (overlaySpans spans (utf8Len pre) ranges).isSome = true := by
  intro spans
  induction spans with
  | nil =>
    intro pre _
    rw [overlaySpans]
    rfl
  | cons s ss ih =>
    intro pre hfull
    have hjoin : catMap id (s :: ss) = s ++ catMap id ss := rfl
    rw [hjoin] at hfull
    have hgo : (overlayGo s (utf8Len pre) ranges 0 s []).isSome = true := by
      apply overlayGo_isSome s (utf8Len pre) ranges 0 [] s [] (byteSplit_zero s)
      · intro r hr hcp hsr
        obtain ⟨hb1, hb2⟩ := hb r hr
        rw [hfull] at hb1 hb2
        constructor
        · by_cases hcase : r.2.1 - utf8Len pre ≤ utf8Len s
          · rw [Nat.min_eq_left hcase]
            exact boundary_restrict pre s (catMap id ss) r.2.1 hb2 (by omega) hcase
          · push_neg at hcase
            rw [Nat.min_eq_right (le_of_lt hcase)]
            unfold isBoundary
            rw [byteSplit_self]
            rfl
        · intro hpr
          exact boundary_restrict pre s (catMap id ss) r.1 hb1 hpr (by omega)
      · intro r _
        exact Or.inr (Nat.zero_le _)
      · exact hpw
    obtain ⟨frags, hfrags⟩ := Option.isSome_iff_exists.mp hgo
    rw [overlaySpans]
    simp only [hfrags]
    have hpre2 : utf8Len pre + utf8Len s = utf8Len (pre ++ s) := (utf8Len_append pre s).symm
    rw [hpre2]
    have hfull2 : full = (pre ++ s) ++ catMap id ss := by
      rw [hfull, List.append_assoc]
    have hih := ih (pre ++ s) hfull2
    cases ho : overlaySpans ss (utf8Len (pre ++ s)) ranges with
    | none => rw [ho] at hih; simp at hih
    | some x => simp [ho]

/-- Claim C4, counterexample: a match range whose end byte offset falls
inside the two-byte code point of a single-character line makes the overlay
slice off a character boundary, which is a panic in the source; the claim as
stated quantifies over every match range list, so it fails here. -/
theorem apply_search_highlight_fault_counterexample :
    apply_search_highlight [['é']] [(0, 1, false)] = none := by
  decide

/-- Claim C4 (amended): the overlay never splits a code point and never
faults provided every match range lies on character boundaries of the line
text and the range ends are ordered, which is what the search engine
produces; and truncating a filename operates on whole characters only, every
output character being a character of the input or a dot of the ellipsis.
For arbitrary byte ranges the overlay does fault, as the counterexample
shows. -/
theorem char_boundary_safety :
    (∀ (spans : List (List Char)) (ranges : List (Nat × Nat × Bool)),
        (∀ r ∈ ranges, isBoundary (catMap id spans) r.1 = true ∧
            isBoundary (catMap id spans) r.2.1 = true) →
        List.Pairwise (fun r1 r2 => r1.2.1 ≤ r2.2.1) ranges →
        (apply_search_highlight spans ranges).isSome = true) ∧
    (∀ (s : List Char) (max_len : Nat) (c : Char),
        c ∈ truncate_middle s max_len → c ∈ s ∨ c = '.') := by
  constructor
  · intro spans ranges hb hpw
    rw [apply_search_highlight]
    by_cases hr : ranges.isEmpty
    · rw [if_pos hr]
      rfl
    · rw [if_neg hr]
      have hmain := overlaySpans_isSome (catMap id spans) ranges hpw hb spans [] (by simp)
      have h0 : utf8Len [] = 0 := rfl
      rw [h0] at hmain
      exact hmain
  · intro s max_len c hc
    unfold truncate_middle at hc
    split_ifs at hc with h1 h2
    · exact Or.inl hc
    · exact Or.inl (List.take_subset _ _ hc)
    · have hc2 : c ∈ s.take ((max_len - 3) / 2) ∨ c ∈ (['.', '.', '.'] : List Char) ∨
          c ∈ s.drop (utf8Len s - (max_len - 3) / 2) := by
        simpa using hc
      rcases hc2 with h | h | h
      · exact Or.inl (List.take_subset _ _ h)
      · simp at h
        exact Or.inr h
      · exact Or.inl (List.drop_subset _ _ h)

/-- Claim C4, witness: the overlay applied to a two-character span with a
boundary-aligned single-byte range, and the truncation of a two-character
name to one character. -/
theorem char_boundary_safety_witness :
    (apply_search_highlight [['a', 'b']] [(0, 1, true)]).isSome = true ∧
    ('a' ∈ (['a', 'b'] : List Char) ∨ 'a' = '.') :=
  ⟨char_boundary_safety.1 [['a', 'b']] [(0, 1, true)] (by decide) (by simp),
   char_boundary_safety.2 ['a', 'b'] 1 'a' (by decide)⟩
